import Mathlib

/-!
Verification development for the NeXtVLAD.pytorch repository.

The Python sources are shallowly embedded:
* numpy float arrays become functions `Fin d → ℚ` (exact arithmetic stands in
  for IEEE floats; `np.sqrt` is an explicit function parameter, since it is a
  library call external to the repository);
* torch tensors are modelled by their shape, which is all the batching claims
  depend on;
* fallible Python code (exceptions) returns `Except`.
-/

namespace NeXtVLAD

/-! ### util.py: `feature_pca_whiten` and `feature_pca` -/

/-- `feat - center` on numpy 1-d arrays: pointwise subtraction. -/
def vecSub {d : ℕ} (feat center : Fin d → ℚ) : Fin d → ℚ :=
  fun i => feat i - center i

/-- `fcen.reshape((1, d)).dot(eigenvecs.T).squeeze(0)`: the row vector `fcen`
times the transpose of the `m × d` matrix `eigenvecs`, squeezed back to a
vector; entry `j` is the dot product of `fcen` with row `j` of `eigenvecs`. -/
def rowDotMatT {d m : ℕ} (v : Fin d → ℚ) (eigenvecs : Fin m → Fin d → ℚ) :
    Fin m → ℚ :=
  fun j => ∑ i, v i * eigenvecs j i

/-- util.py `feature_pca_whiten(feat, center, eigenvals, eigenvecs)`.
`sqrt` stands for `np.sqrt`, applied pointwise to `eigenvals + epsilon`. -/
def feature_pca_whiten {d m : ℕ} (sqrt : ℚ → ℚ) (feat center : Fin d → ℚ)
    (eigenvals : Fin m → ℚ) (eigenvecs : Fin m → Fin d → ℚ) : Fin m → ℚ :=
  let epsilon : ℚ := 1 / 10000
  let fcen := vecSub feat center
  let fpca := rowDotMatT fcen eigenvecs
  fun j => fpca j / sqrt (eigenvals j + epsilon)

/-- util.py `feature_pca(feat, center, eigenvals, eigenvecs)`; `eigenvals` is
unused, exactly as in the source. -/
def feature_pca {d m : ℕ} (feat center : Fin d → ℚ)
    (_eigenvals : Fin m → ℚ) (eigenvecs : Fin m → Fin d → ℚ) : Fin m → ℚ :=
  let fcen := vecSub feat center
  rowDotMatT fcen eigenvecs

/-! ### util.py: `create_batches`

A torch tensor is modelled by its shape, which is all these claims depend on.
`tf_img_fn` may raise (e.g. `Image.open` failing), so it returns `Except`.
The loop body `batch_tensor[i] = input_tensor` requires the new tensor's shape
to match the slice shape established by the first frame of the batch, else
torch raises; `torch.autograd.Variable(None, ...)` (empty batch) also raises. -/

structure Tensor where
  shape : List ℕ
deriving DecidableEq, Repr

/-- `torch.autograd.Variable(batch_tensor, requires_grad=False)`. -/
structure AutogradVariable where
  tensor : Tensor
  requires_grad : Bool
deriving DecidableEq, Repr

/-- The ways `create_batches` can raise. -/
inductive BatchError (ε : Type) where
  | zeroStep
  | emptyBatch
  | shapeMismatch
  | tfError (e : ε)
deriving DecidableEq

/-- The `batch_size = n` cut when `n < batch_size`. -/
def effectiveBatchSize (n batch_size : ℕ) : ℕ :=
  if n < batch_size then n else batch_size

/-- Python `range(0, n, step)` for `step > 0`: the multiples of `step`
below `n`, i.e. `[0, step, 2*step, ...]`, of length `⌈n / step⌉`. -/
def pyRange (n step : ℕ) : List ℕ :=
  (List.range ((n + step - 1) / step)).map (· * step)

/-- `frames_to_do[frames_idx]` for `frames_idx = range(idx, min(idx+step, n))`:
the contiguous slice of the frame list from `idx` (exclusive end
`min (idx + step) n`). -/
def batchFrames {Frame : Type} (frames_to_do : List Frame) (idx step : ℕ) :
    List Frame :=
  (frames_to_do.drop idx).take (min (idx + step) frames_to_do.length - idx)

/-- The inner loop over one batch: transform each frame and fold the shape of
the accumulating `batch_tensor` (`none` before the first frame allocates it).
A transform failure raises; a frame whose transformed shape differs from the
allocated one raises at `batch_tensor[i] = input_tensor`. -/
def batchShapeLoop {Frame ε : Type} (tf_img_fn : Frame → Except ε Tensor) :
    List Frame → Option (List ℕ) → Except (BatchError ε) (Option (List ℕ))
  | [], acc => .ok acc
  | f :: rest, acc =>
    match tf_img_fn f with
    | .error e => .error (.tfError e)
    | .ok t =>
      match acc with
      | none => batchShapeLoop tf_img_fn rest (some t.shape)
      | some s =>
        if t.shape = s then batchShapeLoop tf_img_fn rest (some s)
        else .error .shapeMismatch

/-- One iteration of the outer loop: build `batch_tensor` of shape
`(len(batch_frames),) + input_tensor.shape` and wrap it in a `Variable` with
`requires_grad=False`. -/
def buildBatchTensor {Frame ε : Type} (tf_img_fn : Frame → Except ε Tensor)
    (batch_frames : List Frame) : Except (BatchError ε) AutogradVariable :=
  match batchShapeLoop tf_img_fn batch_frames none with
  | .error e => .error e
  | .ok none => .error .emptyBatch
  | .ok (some s) => .ok ⟨⟨batch_frames.length :: s⟩, false⟩

/-- Sequencing of a fallible loop body over a list, collecting results in
order and propagating the first raised error (`batches.append` pattern). -/
def exceptMap {α β ε : Type} (f : α → Except ε β) : List α → Except ε (List β)
  | [] => .ok []
  | a :: l =>
    match f a with
    | .error e => .error e
    | .ok b =>
      match exceptMap f l with
      | .error e => .error e
      | .ok bs => .ok (b :: bs)

/-- util.py `create_batches(frames_to_do, tf_img_fn, batch_size)`:
cut the batch size to `n` when `n < batch_size`, then for each
`idx in range(0, n, batch_size)` build the batch tensor for the slice
`frames_to_do[idx : min(idx+batch_size, n)]`. Python `range` raises
`ValueError` when its step is `0` (the `n = 0` case). -/
def create_batches {Frame ε : Type} (frames_to_do : List Frame)
    (tf_img_fn : Frame → Except ε Tensor) (batch_size : ℕ := 32) :
    Except (BatchError ε) (List AutogradVariable) :=
  let n := frames_to_do.length
  let bsz := effectiveBatchSize n batch_size
  if bsz = 0 then .error .zeroStep
  else
    exceptMap (fun idx => buildBatchTensor tf_img_fn (batchFrames frames_to_do idx bsz))
      (pyRange n bsz)

/-- The number of frames in a batch tensor: its first dimension. -/
def batchSize (b : AutogradVariable) : ℕ := b.tensor.shape.headD 0

/-- A constant image transform, used to instantiate witnesses. -/
def tfConst : ℕ → Except Unit Tensor := fun _ => .ok ⟨[3, 299, 299]⟩

/-! ### metrics.py: `calculate_gap`

train.py does `from metrics import calculate_gap`, but metrics.py is not part
of the repository snapshot, so the scoring function is modelled from the
spec. -/

/-- Ranking key: predicted confidence, descending. -/
def scoreGE (a b : ℚ × Bool) : Bool := decide (b.1 ≤ a.1)

/-- Modelled from the spec: "restrict to the top-k predictions per item" —
the `k` highest-confidence (prediction, label) pairs of one item. -/
def topK (k : ℕ) (row : List (ℚ × Bool)) : List (ℚ × Bool) :=
  (row.mergeSort scoreGE).take k

/-- Modelled from the spec: "rank all (prediction, label) pairs across the
evaluation set by predicted confidence, descending; restrict to the top-k
predictions per item". -/
def rankedPairs (k : ℕ) (rows : List (List (ℚ × Bool))) : List (ℚ × Bool) :=
  ((rows.map (topK k)).flatten).mergeSort scoreGE

/-- Sum of the precisions at the relevant ranks of a 0/1 relevance list,
starting at rank `pos` with `hits` positives already seen. -/
def precisionSum : List Bool → ℕ → ℕ → ℚ
  | [], _, _ => 0
  | b :: rest, pos, hits =>
    if b then ((hits + 1 : ℚ) / (pos + 1)) + precisionSum rest (pos + 1) (hits + 1)
    else precisionSum rest (pos + 1) hits

/-- Modelled from the spec: "compute average precision over that ranked
list" (`0` when the list has no positives). -/
def averagePrecision (l : List Bool) : ℚ :=
  precisionSum l 0 0 / (l.count true : ℚ)

/-- Modelled from the spec: `calculate_gap(preds, actuals, top_k)` as invoked
by `eval` in train.py, on parallel collections of prediction vectors and
ground-truth label vectors. -/
def calculate_gap (preds : List (List ℚ)) (actuals : List (List Bool))
    (top_k : ℕ) : ℚ :=
  averagePrecision
    ((rankedPairs top_k ((preds.zip actuals).map fun pa => pa.1.zip pa.2)).map
      Prod.snd)

/-! ### train.py: the `__main__` epoch loop, `train`, and `eval`

The loop's side effects are modelled as an event trace; the per-element work
delegated to the framework (forward pass, backward pass, optimiser step,
data loading) is a fallible step function. -/

/-- Observable actions of one run of the `__main__` loop. -/
inductive TrainEvent where
  | trainEpoch (epoch : ℕ)
  | evalEpoch (epoch : ℕ) (gap : ℚ)
  | saveCheckpoint (path : String)
deriving DecidableEq

/-- `f"model_e{epoch}_gap{opt['gapk']}-{gap_score:.3f}.pth"`; `fmt3` is the
Python `:.3f` three-decimal float formatter. -/
def checkpointFileName (epoch gapk : ℕ) (fmt3 : ℚ → String) (score : ℚ) :
    String :=
  "model_e" ++ toString epoch ++ "_gap" ++ toString gapk ++ "-" ++ fmt3 score
    ++ ".pth"

/-- `os.path.join(dir, name)` for a relative `name`. -/
def osPathJoin (dir name : String) : String :=
  if dir = "" then name
  else if dir.endsWith "/" then dir ++ name
  else dir ++ "/" ++ name

/-- One iteration of `for epoch in range(opt['num_epochs'])`: train on the
full training loader, evaluate to a GAP score (`gapOf epoch`), save one
checkpoint at the joined path. -/
def epochIteration (gapk : ℕ) (ckptDir : String) (fmt3 : ℚ → String)
    (gapOf : ℕ → ℚ) (epoch : ℕ) : List TrainEvent :=
  [.trainEpoch epoch, .evalEpoch epoch (gapOf epoch),
   .saveCheckpoint
     (osPathJoin ckptDir (checkpointFileName epoch gapk fmt3 (gapOf epoch)))]

/-- The `__main__` epoch loop of train.py as an event trace. -/
def mainTrainingLoop (numEpochs gapk : ℕ) (ckptDir : String)
    (fmt3 : ℚ → String) (gapOf : ℕ → ℚ) : List TrainEvent :=
  (List.range numEpochs).flatMap (epochIteration gapk ckptDir fmt3 gapOf)

/-- The checkpoint path of a save event, if any. -/
def savedPath : TrainEvent → Option String
  | .saveCheckpoint p => some p
  | _ => none

/-- train.py `train`: one forward/backward/optimiser step per loader element,
in order, with no exception handling. -/
def trainLoop {α ε : Type} (step : α → Except ε Unit) : List α → Except ε Unit
  | [] => .ok ()
  | a :: l =>
    match step a with
    | .error e => .error e
    | .ok _ => trainLoop step l

/-- train.py `eval`: accumulate per-batch prediction rows and ground-truth
rows in order, then score the pooled collections with `calculate_gap`; no
exception handling. -/
def evalLoop {α ε : Type}
    (step : α → Except ε (List (List ℚ) × List (List Bool))) (gapk : ℕ)
    (loader : List α) : Except ε ℚ :=
  match exceptMap step loader with
  | .error e => .error e
  | .ok outs =>
    .ok (calculate_gap ((outs.map Prod.fst).flatten) ((outs.map Prod.snd).flatten)
      gapk)

/-- util.py `process_batches`: one forward-pass-and-pool framework step per
batch, collected in order with no exception handling (the final
`np.concatenate` is on the collected list). -/
def process_batches {β γ ε : Type} (step : β → Except ε γ)
    (batches : List β) : Except ε (List γ) :=
  exceptMap step batches

/-- C2: `feature_pca_whiten` equals the projection `(feat - center) · eigenvecsᵀ`
divided componentwise by `sqrt (eigenvals + epsilon)` with the fixed constant
`epsilon = 1e-4 = 1/10000`. -/
theorem feature_pca_whiten_spec {d m : ℕ} (sqrt : ℚ → ℚ)
    (feat center : Fin d → ℚ) (eigenvals : Fin m → ℚ)
    (eigenvecs : Fin m → Fin d → ℚ) :
    feature_pca_whiten sqrt feat center eigenvals eigenvecs =
      fun j => (∑ i, (feat i - center i) * eigenvecs j i) /
        sqrt (eigenvals j + 1 / 10000) := by
  funext j
  simp [feature_pca_whiten, vecSub, rowDotMatT]

/-- C10: the whitened variant refines plain PCA by exactly the per-component
rescaling by `sqrt (eigenvals + 1e-4)`. -/
theorem feature_pca_whiten_refines_feature_pca {d m : ℕ} (sqrt : ℚ → ℚ)
    (feat center : Fin d → ℚ) (eigenvals : Fin m → ℚ)
    (eigenvecs : Fin m → Fin d → ℚ) :
    feature_pca_whiten sqrt feat center eigenvals eigenvecs =
      fun j => feature_pca feat center eigenvals eigenvecs j /
        sqrt (eigenvals j + 1 / 10000) := by
  funext j
  simp [feature_pca_whiten, feature_pca]

/-- C3: with a full-dimensional orthogonal eigenvector matrix
(`eigenvecsᵀ * eigenvecs = 1`, stated entrywise), inverse-projecting the output
of `feature_pca` and re-adding the center reconstructs the original feature
vector exactly (exact arithmetic). -/
theorem feature_pca_round_trip {d : ℕ} (feat center : Fin d → ℚ)
    (eigenvals : Fin d → ℚ) (eigenvecs : Fin d → Fin d → ℚ)
    (horth : ∀ i i' : Fin d, (∑ j, eigenvecs j i * eigenvecs j i') =
      if i = i' then 1 else 0) :
    (fun i => (∑ j, feature_pca feat center eigenvals eigenvecs j * eigenvecs j i)
        + center i) = feat := by
  funext i
  have expand : (∑ j, feature_pca feat center eigenvals eigenvecs j * eigenvecs j i)
      = ∑ i' : Fin d, (feat i' - center i') * ∑ j, eigenvecs j i' * eigenvecs j i := by
    simp only [feature_pca, rowDotMatT, vecSub, Finset.sum_mul]
    rw [Finset.sum_comm]
    refine Finset.sum_congr rfl fun i' _ => ?_
    rw [Finset.mul_sum]
    refine Finset.sum_congr rfl fun j _ => ?_
    ring
  rw [expand]
  have : ∀ i' : Fin d, (feat i' - center i') * (∑ j, eigenvecs j i' * eigenvecs j i)
      = if i' = i then feat i' - center i' else 0 := by
    intro i'
    rw [horth i' i]
    by_cases h : i' = i <;> simp [h]
  rw [Finset.sum_congr rfl fun i' _ => this i']
  simp

/-- Witness for C3: a concrete run at `d = 1` with the identity eigenvector
matrix. -/
theorem feature_pca_round_trip_witness :
    (fun i : Fin 1 => (∑ j : Fin 1, feature_pca (fun _ : Fin 1 => (3 : ℚ))
        (fun _ => 1) (fun _ => 7) (fun _ _ => 1) j * (fun _ _ : Fin 1 => (1 : ℚ)) j i)
        + (fun _ : Fin 1 => (1 : ℚ)) i) = (fun _ : Fin 1 => (3 : ℚ)) :=
  feature_pca_round_trip (fun _ => 3) (fun _ => 1) (fun _ => 7) (fun _ _ => 1)
    (by intro i i'; simp [Fin.sum_univ_one, Subsingleton.elim i i'])

/-- C7: `feature_pca_whiten` and `feature_pca` are pure functions of their
arguments (the embedding is pure, matching the allocation-only numpy code):
equal inputs give equal outputs for both functions. -/
theorem feature_pca_functions_deterministic {d m : ℕ}
    (sqrt1 sqrt2 : ℚ → ℚ) (f1 f2 c1 c2 : Fin d → ℚ) (v1 v2 : Fin m → ℚ)
    (E1 E2 : Fin m → Fin d → ℚ)
    (hs : sqrt1 = sqrt2) (hf : f1 = f2) (hc : c1 = c2) (hv : v1 = v2)
    (hE : E1 = E2) :
    feature_pca_whiten sqrt1 f1 c1 v1 E1 = feature_pca_whiten sqrt2 f2 c2 v2 E2 ∧
      feature_pca f1 c1 v1 E1 = feature_pca f2 c2 v2 E2 := by
  subst hs; subst hf; subst hc; subst hv; subst hE
  exact ⟨rfl, rfl⟩

/-- Witness for C7 at concrete inputs. -/
theorem feature_pca_functions_deterministic_witness :
    feature_pca_whiten id (fun _ : Fin 1 => (2 : ℚ)) (fun _ => 1)
        (fun _ : Fin 1 => (3 : ℚ)) (fun _ _ => 1) =
      feature_pca_whiten id (fun _ : Fin 1 => (2 : ℚ)) (fun _ => 1)
        (fun _ : Fin 1 => (3 : ℚ)) (fun _ _ => 1) ∧
      feature_pca (fun _ : Fin 1 => (2 : ℚ)) (fun _ => 1)
        (fun _ : Fin 1 => (3 : ℚ)) (fun _ _ => 1) =
      feature_pca (fun _ : Fin 1 => (2 : ℚ)) (fun _ => 1)
        (fun _ : Fin 1 => (3 : ℚ)) (fun _ _ => 1) :=
  feature_pca_functions_deterministic id id (fun _ => 2) (fun _ => 2)
    (fun _ => 1) (fun _ => 1) (fun _ => 3) (fun _ => 3) (fun _ _ => 1)
    (fun _ _ => 1) rfl rfl rfl rfl rfl

lemma exceptMap_forall2 {α β ε : Type} {f : α → Except ε β} :
    ∀ {l : List α} {bs : List β}, exceptMap f l = .ok bs →
      List.Forall₂ (fun a b => f a = .ok b) l bs := by
  intro l
  induction l with
  | nil =>
    intro bs h
    simp only [exceptMap] at h
    cases h
    exact .nil
  | cons a l ih =>
    intro bs h
    simp only [exceptMap] at h
    cases hfa : f a with
    | error e => rw [hfa] at h; cases h
    | ok b =>
      rw [hfa] at h
      cases hrec : exceptMap f l with
      | error e => rw [hrec] at h; cases h
      | ok bs0 =>
        rw [hrec] at h
        cases h
        exact .cons hfa (ih hrec)

lemma exceptMap_ok_mem {α β ε : Type} {f : α → Except ε β} :
    ∀ {l : List α} {bs : List β}, exceptMap f l = .ok bs →
      ∀ a ∈ l, ∃ b, f a = .ok b := by
  intro l
  induction l with
  | nil => intro bs _ a ha; cases ha
  | cons a0 l ih =>
    intro bs h a ha
    simp only [exceptMap] at h
    cases hfa : f a0 with
    | error e => rw [hfa] at h; cases h
    | ok b =>
      rw [hfa] at h
      cases hrec : exceptMap f l with
      | error e => rw [hrec] at h; cases h
      | ok bs0 =>
        rcases List.mem_cons.mp ha with rfl | h2
        · exact ⟨b, hfa⟩
        · exact ih hrec a h2

lemma effectiveBatchSize_pos {n B : ℕ} (h : effectiveBatchSize n B ≠ 0) :
    1 ≤ n ∧ 1 ≤ B ∧ effectiveBatchSize n B ≤ B := by
  unfold effectiveBatchSize at h ⊢
  by_cases hlt : n < B
  · rw [if_pos hlt] at h ⊢; omega
  · rw [if_neg hlt] at h ⊢; omega

lemma batchFrames_length {Frame : Type} (frames : List Frame) (idx step : ℕ) :
    (batchFrames frames idx step).length =
      min (idx + step) frames.length - idx := by
  simp [batchFrames]
  omega

lemma pyRange_length (n step : ℕ) :
    (pyRange n step).length = (n + step - 1) / step := by
  simp [pyRange]

lemma ceil_div_mul_ge (n step : ℕ) (hstep : 1 ≤ step) :
    n ≤ ((n + step - 1) / step) * step := by
  have h1 := Nat.div_add_mod (n + step - 1) step
  have h2 := Nat.mod_lt (n + step - 1) hstep
  have h3 : ((n + step - 1) / step) * step = step * ((n + step - 1) / step) :=
    Nat.mul_comm _ _
  omega

lemma sizes_sum (step n : ℕ) :
    ∀ m, (((List.range m).map fun j => min (j * step + step) n - j * step).sum) =
      min (m * step) n := by
  intro m
  induction m with
  | zero => simp
  | succ m ih =>
    rw [List.range_succ, List.map_append, List.sum_append, ih]
    have hm : (m + 1) * step = m * step + step := by ring
    simp only [List.map_cons, List.map_nil, List.sum_cons, List.sum_nil]
    omega

lemma batchShapeLoop_some {Frame ε : Type} {tf : Frame → Except ε Tensor}
    {s : List ℕ} :
    ∀ {l : List Frame} {r}, batchShapeLoop tf l (some s) = .ok r →
      r = some s ∧ ∀ f ∈ l, ∃ t, tf f = .ok t ∧ t.shape = s := by
  intro l
  induction l with
  | nil =>
    intro r h
    simp only [batchShapeLoop] at h
    cases h
    exact ⟨rfl, by simp⟩
  | cons f l ih =>
    intro r h
    simp only [batchShapeLoop] at h
    cases hf : tf f with
    | error e => rw [hf] at h; cases h
    | ok t =>
      simp only [hf] at h
      by_cases hsh : t.shape = s
      · rw [if_pos hsh] at h
        rcases ih h with ⟨hr, hall⟩
        refine ⟨hr, ?_⟩
        intro g hg
        rcases List.mem_cons.mp hg with rfl | h2
        · exact ⟨t, hf, hsh⟩
        · exact hall g h2
      · rw [if_neg hsh] at h; cases h

lemma batchShapeLoop_none {Frame ε : Type} {tf : Frame → Except ε Tensor} :
    ∀ {l : List Frame} {s : List ℕ},
      batchShapeLoop tf l none = .ok (some s) →
      l ≠ [] ∧ ∀ f ∈ l, ∃ t, tf f = .ok t ∧ t.shape = s := by
  intro l s h
  cases l with
  | nil => simp only [batchShapeLoop] at h; cases h
  | cons f l =>
    simp only [batchShapeLoop] at h
    cases hf : tf f with
    | error e => rw [hf] at h; cases h
    | ok t =>
      simp only [hf] at h
      rcases batchShapeLoop_some h with ⟨hr, hall⟩
      cases hr
      refine ⟨by simp, ?_⟩
      intro g hg
      rcases List.mem_cons.mp hg with rfl | h2
      · exact ⟨t, hf, rfl⟩
      · exact hall g h2

lemma buildBatchTensor_ok {Frame ε : Type} {tf : Frame → Except ε Tensor}
    {l : List Frame} {b : AutogradVariable}
    (h : buildBatchTensor tf l = .ok b) :
    b.requires_grad = false ∧ ∃ s, b.tensor.shape = l.length :: s ∧
      ∀ f ∈ l, ∃ t, tf f = .ok t ∧ t.shape = s := by
  unfold buildBatchTensor at h
  cases hloop : batchShapeLoop tf l none with
  | error e => rw [hloop] at h; cases h
  | ok r =>
    rw [hloop] at h
    cases r with
    | none => cases h
    | some s =>
      cases h
      exact ⟨rfl, s, rfl, (batchShapeLoop_none hloop).2⟩

lemma batchShapeLoop_const {Frame ε : Type} {tf : Frame → Except ε Tensor}
    {s : List ℕ} :
    ∀ {l : List Frame}, (∀ f ∈ l, tf f = .ok ⟨s⟩) →
      batchShapeLoop tf l (some s) = .ok (some s) := by
  intro l
  induction l with
  | nil => intro _; simp [batchShapeLoop]
  | cons f l ih =>
    intro hall
    have hf : tf f = .ok ⟨s⟩ := hall f (by simp)
    simp only [batchShapeLoop, hf]
    rw [if_pos trivial]
    exact ih fun g hg => hall g (List.mem_cons_of_mem _ hg)

lemma buildBatchTensor_const {Frame ε : Type} {tf : Frame → Except ε Tensor}
    {s : List ℕ} {l : List Frame} (hne : l ≠ [])
    (hall : ∀ f ∈ l, tf f = .ok ⟨s⟩) :
    buildBatchTensor tf l = .ok ⟨⟨l.length :: s⟩, false⟩ := by
  cases l with
  | nil => exact absurd rfl hne
  | cons f l =>
    have hf : tf f = .ok ⟨s⟩ := hall f (by simp)
    unfold buildBatchTensor
    simp only [batchShapeLoop, hf]
    rw [batchShapeLoop_const fun g hg => hall g (List.mem_cons_of_mem _ hg)]

lemma ceil_div_effective {n B : ℕ} (hn : 1 ≤ n) (hB : 1 ≤ B) :
    (n + effectiveBatchSize n B - 1) / effectiveBatchSize n B =
      (n + B - 1) / B := by
  unfold effectiveBatchSize
  by_cases hlt : n < B
  · rw [if_pos hlt]
    have h1 : (n + n - 1) / n = 1 :=
      Nat.div_eq_of_lt_le (by omega) (by omega)
    have h2 : (n + B - 1) / B = 1 :=
      Nat.div_eq_of_lt_le (by omega) (by omega)
    rw [h1, h2]
  · rw [if_neg hlt]

lemma forall2_map_eq {α β γ : Type} {R : α → β → Prop} {g : β → γ}
    {h : α → γ} {l : List α} {bs : List β} (hf : List.Forall₂ R l bs)
    (hgh : ∀ a b, R a b → g b = h a) : bs.map g = l.map h := by
  induction hf with
  | nil => rfl
  | cons hab _ ih => simp [hgh _ _ hab, ih]

lemma create_batches_split {Frame ε : Type} {frames : List Frame}
    {tf : Frame → Except ε Tensor} {B : ℕ} {bs : List AutogradVariable}
    (hok : create_batches frames tf B = .ok bs) :
    effectiveBatchSize frames.length B ≠ 0 ∧
      exceptMap (fun idx => buildBatchTensor tf
          (batchFrames frames idx (effectiveBatchSize frames.length B)))
        (pyRange frames.length (effectiveBatchSize frames.length B)) = .ok bs := by
  by_cases h0 : effectiveBatchSize frames.length B = 0
  · simp only [create_batches, h0] at hok
    rw [if_pos trivial] at hok
    cases hok
  · simp only [create_batches] at hok
    rw [if_neg h0] at hok
    exact ⟨h0, hok⟩

/-- Counterexample to C1 as stated: on the empty input list (`N = 0`),
`create_batches` raises from the zero-step `range` instead of returning
`⌈0/32⌉ = 0` batches. -/
theorem create_batches_empty_counterexample :
    create_batches ([] : List ℕ) tfConst 32 = .error .zeroStep ∧
      ∀ bs, create_batches ([] : List ℕ) tfConst 32 ≠ .ok bs := by
  refine ⟨rfl, fun bs h => ?_⟩
  rw [(by rfl : create_batches ([] : List ℕ) tfConst 32 =
    Except.error BatchError.zeroStep)] at h
  cases h

/-- C1 (amended): whenever `create_batches` returns normally (true exactly
when the input is non-empty, the batch size positive, and the transform
succeeds with a uniform shape on every frame), it returns `⌈N/B⌉` batches
whose sizes sum to `N` and are each at most `B`. -/
theorem create_batches_partition {Frame ε : Type} (frames : List Frame)
    (tf : Frame → Except ε Tensor) (B : ℕ) (bs : List AutogradVariable)
    (hok : create_batches frames tf B = .ok bs) :
    bs.length = (frames.length + B - 1) / B ∧
      (bs.map batchSize).sum = frames.length ∧
      ∀ b ∈ bs, batchSize b ≤ B := by
  obtain ⟨h0, hmap⟩ := create_batches_split hok
  obtain ⟨hn, hB, hle⟩ := effectiveBatchSize_pos h0
  set n := frames.length with hnn
  set bsz := effectiveBatchSize n B with hbsz
  have hf2 := exceptMap_forall2 hmap
  have hsizes : bs.map batchSize =
      (pyRange n bsz).map fun idx => min (idx + bsz) n - idx := by
    refine forall2_map_eq hf2 fun idx b hb => ?_
    obtain ⟨-, s, hsh, -⟩ := buildBatchTensor_ok hb
    rw [batchSize, hsh]
    simp [batchFrames_length]
  have hbsz1 : 1 ≤ bsz := Nat.one_le_iff_ne_zero.mpr h0
  refine ⟨?_, ?_, ?_⟩
  · rw [← hf2.length_eq, pyRange_length, ← ceil_div_effective hn hB]
  · rw [hsizes]
    unfold pyRange
    rw [List.map_map]
    have : ((fun idx => min (idx + bsz) n - idx) ∘ (· * bsz)) =
        fun j => min (j * bsz + bsz) n - j * bsz := by
      funext j; rfl
    rw [this, sizes_sum]
    have := ceil_div_mul_ge n bsz hbsz1
    omega
  · intro b hb
    have hmem : batchSize b ∈ bs.map batchSize := List.mem_map_of_mem _ hb
    rw [hsizes] at hmem
    obtain ⟨idx, -, heq⟩ := List.mem_map.mp hmem
    omega

/-- Witness for C1 (amended): five frames with batch size two give three
batches of sizes 2, 2, 1. -/
theorem create_batches_partition_witness :
    ([⟨⟨[2, 3, 299, 299]⟩, false⟩, ⟨⟨[2, 3, 299, 299]⟩, false⟩,
        ⟨⟨[1, 3, 299, 299]⟩, false⟩] : List AutogradVariable).length =
        (([0, 1, 2, 3, 4] : List ℕ).length + 2 - 1) / 2 ∧
      (([⟨⟨[2, 3, 299, 299]⟩, false⟩, ⟨⟨[2, 3, 299, 299]⟩, false⟩,
        ⟨⟨[1, 3, 299, 299]⟩, false⟩] : List AutogradVariable).map batchSize).sum =
        ([0, 1, 2, 3, 4] : List ℕ).length ∧
      ∀ b ∈ ([⟨⟨[2, 3, 299, 299]⟩, false⟩, ⟨⟨[2, 3, 299, 299]⟩, false⟩,
        ⟨⟨[1, 3, 299, 299]⟩, false⟩] : List AutogradVariable), batchSize b ≤ 2 :=
  create_batches_partition [0, 1, 2, 3, 4] tfConst 2
    [⟨⟨[2, 3, 299, 299]⟩, false⟩, ⟨⟨[2, 3, 299, 299]⟩, false⟩,
      ⟨⟨[1, 3, 299, 299]⟩, false⟩] rfl

/-- C9: when `0 < N < B` the effective batch size is cut to `N` and — the
transforms succeeding with a uniform shape — exactly one batch of size `N` is
returned; when `N = 0`, `create_batches` raises from the zero-step `range`. -/
theorem create_batches_small_input {Frame ε : Type} (frames : List Frame)
    (tf : Frame → Except ε Tensor) (B : ℕ) (s : List ℕ)
    (hn : 1 ≤ frames.length) (hnB : frames.length < B)
    (hall : ∀ f ∈ frames, tf f = .ok ⟨s⟩) :
    effectiveBatchSize frames.length B = frames.length ∧
      create_batches frames tf B = .ok [⟨⟨frames.length :: s⟩, false⟩] ∧
      ∀ (tf2 : Frame → Except ε Tensor) (B2 : ℕ),
        create_batches ([] : List Frame) tf2 B2 = .error .zeroStep := by
  have heff : effectiveBatchSize frames.length B = frames.length := by
    unfold effectiveBatchSize; rw [if_pos hnB]
  refine ⟨heff, ?_, ?_⟩
  · have hrange : pyRange frames.length frames.length = [0] := by
      unfold pyRange
      have h1 : (frames.length + frames.length - 1) / frames.length = 1 :=
        Nat.div_eq_of_lt_le (by omega) (by omega)
      rw [h1]
      simp [List.range_succ]
    have hbf : batchFrames frames 0 frames.length = frames := by
      unfold batchFrames
      simp
    have hbuild : buildBatchTensor tf (batchFrames frames 0 frames.length) =
        .ok ⟨⟨frames.length :: s⟩, false⟩ := by
      rw [hbf]
      exact buildBatchTensor_const (by cases frames <;> simp_all) hall
    simp only [create_batches, heff]
    rw [if_neg (by omega), hrange]
    simp only [exceptMap, hbuild]
  · intro tf2 B2
    have h0 : effectiveBatchSize (0 : ℕ) B2 = 0 := by
      unfold effectiveBatchSize
      split <;> omega
    simp only [create_batches, List.length_nil, h0]
    rw [if_pos trivial]

/-- Witness for C9: three frames with batch size five give one batch of
size 3; the empty list raises. -/
theorem create_batches_small_input_witness :
    effectiveBatchSize ([7, 8, 9] : List ℕ).length 5 = ([7, 8, 9] : List ℕ).length ∧
      create_batches ([7, 8, 9] : List ℕ) tfConst 5 =
        .ok [⟨⟨([7, 8, 9] : List ℕ).length :: [3, 299, 299]⟩, false⟩] ∧
      ∀ (tf2 : ℕ → Except Unit Tensor) (B2 : ℕ),
        create_batches ([] : List ℕ) tf2 B2 = .error .zeroStep :=
  create_batches_small_input [7, 8, 9] tfConst 5 [3, 299, 299] (by decide)
    (by decide) (fun _ _ => rfl)

/-- C6: every batch returned by `create_batches` is a tensor whose first
dimension is the number of frames assigned to that batch, whose remaining
dimensions are the (uniform) output shape of the image transform on each of
that batch's frames, and whose `requires_grad` is `false`. -/
theorem create_batches_batch_shape {Frame ε : Type} (frames : List Frame)
    (tf : Frame → Except ε Tensor) (B : ℕ) (bs : List AutogradVariable)
    (hok : create_batches frames tf B = .ok bs) :
    List.Forall₂ (fun (idx : ℕ) (b : AutogradVariable) =>
        b.requires_grad = false ∧ ∃ s,
        b.tensor.shape =
          (batchFrames frames idx (effectiveBatchSize frames.length B)).length :: s ∧
        ∀ f ∈ batchFrames frames idx (effectiveBatchSize frames.length B),
          ∃ t, tf f = .ok t ∧ t.shape = s)
      (pyRange frames.length (effectiveBatchSize frames.length B)) bs := by
  obtain ⟨-, hmap⟩ := create_batches_split hok
  exact (exceptMap_forall2 hmap).imp fun idx b hb => buildBatchTensor_ok hb

/-- Witness for C6: three frames with batch size two give two batches of
shapes `[2, 3, 299, 299]` and `[1, 3, 299, 299]`, both with
`requires_grad = false`. -/
theorem create_batches_batch_shape_witness :
    List.Forall₂ (fun (idx : ℕ) (b : AutogradVariable) =>
        b.requires_grad = false ∧ ∃ s,
        b.tensor.shape =
          (batchFrames ([0, 1, 2] : List ℕ) idx
            (effectiveBatchSize ([0, 1, 2] : List ℕ).length 2)).length :: s ∧
        ∀ f ∈ batchFrames ([0, 1, 2] : List ℕ) idx
            (effectiveBatchSize ([0, 1, 2] : List ℕ).length 2),
          ∃ t, tfConst f = .ok t ∧ t.shape = s)
      (pyRange ([0, 1, 2] : List ℕ).length
        (effectiveBatchSize ([0, 1, 2] : List ℕ).length 2))
      [⟨⟨[2, 3, 299, 299]⟩, false⟩, ⟨⟨[1, 3, 299, 299]⟩, false⟩] :=
  create_batches_batch_shape [0, 1, 2] tfConst 2
    [⟨⟨[2, 3, 299, 299]⟩, false⟩, ⟨⟨[1, 3, 299, 299]⟩, false⟩] rfl

lemma savedPaths_mainTrainingLoop (gapk : ℕ) (ckptDir : String)
    (fmt3 : ℚ → String) (gapOf : ℕ → ℚ) :
    ∀ n, (mainTrainingLoop n gapk ckptDir fmt3 gapOf).filterMap savedPath =
      (List.range n).map fun ep =>
        osPathJoin ckptDir (checkpointFileName ep gapk fmt3 (gapOf ep)) := by
  intro n
  induction n with
  | zero => rfl
  | succ n ih =>
    unfold mainTrainingLoop at ih ⊢
    rw [List.range_succ, List.flatMap_append, List.filterMap_append, ih,
        List.map_append]
    rfl

lemma epochIteration_infix (gapk : ℕ) (ckptDir : String) (fmt3 : ℚ → String)
    (gapOf : ℕ → ℚ) {e : ℕ} :
    ∀ {n}, e < n → epochIteration gapk ckptDir fmt3 gapOf e <:+:
      mainTrainingLoop n gapk ckptDir fmt3 gapOf := by
  intro n
  induction n with
  | zero => intro h; omega
  | succ n ih =>
    intro he
    unfold mainTrainingLoop at ih ⊢
    rw [List.range_succ, List.flatMap_append]
    by_cases h : e < n
    · exact (ih h).trans ⟨[], _, rfl⟩
    · have : e = n := by omega
      subst this
      exact ⟨(List.range e).flatMap (epochIteration gapk ckptDir fmt3 gapOf),
        [], by simp⟩

/-- C5: for every epoch `e < numEpochs`, the main loop's epoch iteration
trains, then evaluates to a GAP score, then saves exactly one checkpoint at
`ckpt_dir` joined with `model_e{e}_gap{k}-{score}.pth` (score formatted by
the three-decimal formatter); that iteration occurs inside the run's trace,
and over the whole run the saved checkpoints are exactly one per epoch, in
epoch order. -/
theorem main_loop_checkpoints (numEpochs gapk : ℕ) (ckptDir : String)
    (fmt3 : ℚ → String) (gapOf : ℕ → ℚ) (e : ℕ) (he : e < numEpochs) :
    (mainTrainingLoop numEpochs gapk ckptDir fmt3 gapOf).filterMap savedPath =
      (List.range numEpochs).map (fun ep =>
        osPathJoin ckptDir (checkpointFileName ep gapk fmt3 (gapOf ep))) ∧
    epochIteration gapk ckptDir fmt3 gapOf e =
      [.trainEpoch e, .evalEpoch e (gapOf e),
       .saveCheckpoint (osPathJoin ckptDir
         ("model_e" ++ toString e ++ "_gap" ++ toString gapk ++ "-" ++
           fmt3 (gapOf e) ++ ".pth"))] ∧
    epochIteration gapk ckptDir fmt3 gapOf e <:+:
      mainTrainingLoop numEpochs gapk ckptDir fmt3 gapOf :=
  ⟨savedPaths_mainTrainingLoop gapk ckptDir fmt3 gapOf numEpochs, rfl,
    epochIteration_infix gapk ckptDir fmt3 gapOf he⟩

/-- Witness for C5 at two epochs, `k = 20`, directory `ckpt/`, and a
constant evaluation score. -/
theorem main_loop_checkpoints_witness :
    (mainTrainingLoop 2 20 "ckpt/" (fun _ => "0.500")
        (fun _ => 1 / 2)).filterMap savedPath =
      (List.range 2).map (fun ep =>
        osPathJoin "ckpt/" (checkpointFileName ep 20 (fun _ => "0.500")
          ((fun _ => 1 / 2) ep))) ∧
    epochIteration 20 "ckpt/" (fun _ => "0.500") (fun _ => 1 / 2) 1 =
      [.trainEpoch 1, .evalEpoch 1 ((fun _ => 1 / 2) 1),
       .saveCheckpoint (osPathJoin "ckpt/"
         ("model_e" ++ toString 1 ++ "_gap" ++ toString 20 ++ "-" ++
           (fun _ : ℚ => "0.500") ((fun _ : ℕ => (1 / 2 : ℚ)) 1) ++ ".pth"))] ∧
    epochIteration 20 "ckpt/" (fun _ => "0.500") (fun _ => 1 / 2) 1 <:+:
      mainTrainingLoop 2 20 "ckpt/" (fun _ => "0.500") (fun _ => 1 / 2) :=
  main_loop_checkpoints 2 20 "ckpt/" (fun _ => "0.500") (fun _ => 1 / 2) 1
    (by decide)

lemma exceptMap_error_of_mem {α β ε : Type} {f : α → Except ε β} :
    ∀ {l : List α} {x : α} {e : ε}, x ∈ l → f x = .error e →
      ∃ err, exceptMap f l = .error err := by
  intro l
  induction l with
  | nil => intro x e hx _; cases hx
  | cons a l ih =>
    intro x e hx hfx
    rcases List.mem_cons.mp hx with rfl | hx2
    · exact ⟨e, by simp [exceptMap, hfx]⟩
    · cases hfa : f a with
      | error e2 => exact ⟨e2, by simp [exceptMap, hfa]⟩
      | ok b =>
        obtain ⟨err, herr⟩ := ih hx2 hfx
        exact ⟨err, by simp [exceptMap, hfa, herr]⟩

lemma trainLoop_error_of_mem {α ε : Type} {step : α → Except ε Unit} :
    ∀ {l : List α} {x : α} {e : ε}, x ∈ l → step x = .error e →
      ∃ err, trainLoop step l = .error err := by
  intro l
  induction l with
  | nil => intro x e hx _; cases hx
  | cons a l ih =>
    intro x e hx hsx
    rcases List.mem_cons.mp hx with rfl | hx2
    · exact ⟨e, by simp [trainLoop, hsx]⟩
    · cases hsa : step a with
      | error e2 => exact ⟨e2, by simp [trainLoop, hsa]⟩
      | ok u =>
        obtain ⟨err, herr⟩ := ih hx2 hsx
        exact ⟨err, by simp [trainLoop, hsa, herr]⟩

lemma mem_pyRange_of_lt {n bsz i : ℕ} (hbsz : bsz ≠ 0) (hi : i < n) :
    i / bsz * bsz ∈ pyRange n bsz := by
  unfold pyRange
  refine List.mem_map.mpr ⟨i / bsz, List.mem_range.mpr ?_, rfl⟩
  have h1 : n ≤ ((n + bsz - 1) / bsz) * bsz := ceil_div_mul_ge n bsz (by omega)
  exact (Nat.div_lt_iff_lt_mul (by omega)).mpr (by omega)

lemma mem_batchFrames_of_getElem {Frame : Type} {frames : List Frame}
    {bsz i : ℕ} {x : Frame} (hbsz : bsz ≠ 0) (hi : i < frames.length)
    (hx : frames[i]? = some x) :
    x ∈ batchFrames frames (i / bsz * bsz) bsz := by
  have hle : i / bsz * bsz ≤ i := Nat.div_mul_le_self i bsz
  have hmod := Nat.div_add_mod i bsz
  have hmlt := Nat.mod_lt i (show 0 < bsz by omega)
  have hcomm : bsz * (i / bsz) = i / bsz * bsz := Nat.mul_comm _ _
  refine List.mem_iff_getElem?.mpr ⟨i - i / bsz * bsz, ?_⟩
  unfold batchFrames
  rw [List.getElem?_take_of_lt (by omega), List.getElem?_drop]
  rw [show i / bsz * bsz + (i - i / bsz * bsz) = i from by omega]
  exact hx

lemma create_batches_ok_tf {Frame ε : Type} {frames : List Frame}
    {tf : Frame → Except ε Tensor} {B : ℕ} {bs : List AutogradVariable}
    (hok : create_batches frames tf B = .ok bs) :
    ∀ f ∈ frames, ∃ t, tf f = .ok t := by
  intro f hf
  obtain ⟨h0, hmap⟩ := create_batches_split hok
  obtain ⟨i, hi, heq⟩ := List.mem_iff_getElem.mp hf
  have hmem : i / effectiveBatchSize frames.length B *
      effectiveBatchSize frames.length B ∈
      pyRange frames.length (effectiveBatchSize frames.length B) :=
    mem_pyRange_of_lt h0 hi
  obtain ⟨b, hb⟩ := exceptMap_ok_mem hmap _ hmem
  obtain ⟨-, s, -, hall⟩ := buildBatchTensor_ok hb
  have hxmem : f ∈ batchFrames frames
      (i / effectiveBatchSize frames.length B *
        effectiveBatchSize frames.length B)
      (effectiveBatchSize frames.length B) :=
    mem_batchFrames_of_getElem h0 hi
      (by rw [List.getElem?_eq_getElem hi, heq])
  obtain ⟨t, ht, -⟩ := hall f hxmem
  exact ⟨t, ht⟩

/-- C8: no operation retries or recovers from a failure: an error raised by
a step inside `train`, `eval`, `create_batches`, or `process_batches`
propagates uncaught — the call terminates with an error, never a normal
return. -/
theorem errors_propagate {α β γ δ Frame ε ε2 : Type}
    (stepT : α → Except ε Unit) (lT : List α) (x : α) (eT : ε)
    (hxT : x ∈ lT) (hxe : stepT x = .error eT)
    (stepE : β → Except ε (List (List ℚ) × List (List Bool))) (gapk : ℕ)
    (lE : List β) (y : β) (eE : ε) (hyE : y ∈ lE) (hye : stepE y = .error eE)
    (frames : List Frame) (tf : Frame → Except ε2 Tensor) (B : ℕ)
    (f : Frame) (eC : ε2) (hfC : f ∈ frames) (hfe : tf f = .error eC)
    (stepP : γ → Except ε δ) (lP : List γ) (z : γ) (eP : ε)
    (hzP : z ∈ lP) (hze : stepP z = .error eP) :
    (∃ err, trainLoop stepT lT = .error err) ∧
    (∃ err, evalLoop stepE gapk lE = .error err) ∧
    (∃ err, create_batches frames tf B = .error err) ∧
    (∃ err, process_batches stepP lP = .error err) := by
  refine ⟨trainLoop_error_of_mem hxT hxe, ?_, ?_, ?_⟩
  · obtain ⟨err, herr⟩ := exceptMap_error_of_mem hyE hye
    exact ⟨err, by simp [evalLoop, herr]⟩
  · cases hres : create_batches frames tf B with
    | error err => exact ⟨err, rfl⟩
    | ok bs =>
      obtain ⟨t, ht⟩ := create_batches_ok_tf hres f hfC
      rw [hfe] at ht
      cases ht
  · exact exceptMap_error_of_mem hzP hze

/-- Witness for C8: all four loops on singleton inputs whose single step
raises. -/
theorem errors_propagate_witness :
    (∃ err, trainLoop (fun _ : ℕ => (Except.error () : Except Unit Unit)) [0] =
      .error err) ∧
    (∃ err, evalLoop (fun _ : ℕ =>
      (Except.error () : Except Unit (List (List ℚ) × List (List Bool)))) 20 [0] =
      .error err) ∧
    (∃ err, create_batches [0]
      (fun _ : ℕ => (Except.error () : Except Unit Tensor)) 32 = .error err) ∧
    (∃ err, process_batches (fun _ : ℕ => (Except.error () : Except Unit ℕ)) [0] =
      .error err) :=
  errors_propagate (fun _ => Except.error ()) [0] 0 () (by decide) rfl
    (fun _ => Except.error ()) 20 [0] 0 () (by decide) rfl
    [0] (fun _ => Except.error ()) 32 0 () (by decide) rfl
    (fun _ => Except.error ()) [0] 0 () (by decide) rfl

lemma precisionSum_nonneg : ∀ (l : List Bool) (pos hits : ℕ),
    0 ≤ precisionSum l pos hits := by
  intro l
  induction l with
  | nil => intro pos hits; simp [precisionSum]
  | cons b rest ih =>
    intro pos hits
    cases b with
    | true =>
      simp only [precisionSum, if_pos rfl]
      have h1 : (0 : ℚ) ≤ ((hits : ℚ) + 1) / ((pos : ℚ) + 1) := by positivity
      have h2 := ih (pos + 1) (hits + 1)
      push_cast at *
      linarith
    | false =>
      simp only [precisionSum]
      rw [if_neg (by simp)]
      exact ih (pos + 1) hits

lemma precisionSum_le_count : ∀ (l : List Bool) (pos hits : ℕ),
    hits ≤ pos → precisionSum l pos hits ≤ (l.count true : ℚ) := by
  intro l
  induction l with
  | nil => intro pos hits _; simp [precisionSum]
  | cons b rest ih =>
    intro pos hits h
    cases b with
    | true =>
      simp only [precisionSum, if_pos rfl, List.count_cons_self]
      have hdiv : ((hits : ℚ) + 1) / ((pos : ℚ) + 1) ≤ 1 := by
        rw [div_le_one (by positivity)]
        have : (hits : ℚ) ≤ (pos : ℚ) := by exact_mod_cast h
        linarith
      have hrec := ih (pos + 1) (hits + 1) (by omega)
      push_cast at *
      linarith
    | false =>
      simp only [precisionSum]
      rw [if_neg (by simp), List.count_cons_of_ne (by simp)]
      exact ih (pos + 1) hits (by omega)

lemma precisionSum_allFalse : ∀ (l : List Bool) (pos hits : ℕ),
    (∀ b ∈ l, b = false) → precisionSum l pos hits = 0 := by
  intro l
  induction l with
  | nil => intro pos hits _; rfl
  | cons b rest ih =>
    intro pos hits hall
    have hb : b = false := hall b (by simp)
    subst hb
    simp only [precisionSum]
    rw [if_neg (by simp)]
    exact ih (pos + 1) hits fun c hc => hall c (List.mem_cons_of_mem _ hc)

lemma averagePrecision_bounds (l : List Bool) :
    0 ≤ averagePrecision l ∧ averagePrecision l ≤ 1 := by
  unfold averagePrecision
  by_cases hc : l.count true = 0
  · have hall : ∀ b ∈ l, b = false := by
      intro b hb
      cases b with
      | true => exact absurd hb (List.count_eq_zero.mp hc)
      | false => rfl
    rw [precisionSum_allFalse l 0 0 hall, hc]
    norm_num
  · have hpos : (0 : ℚ) < (l.count true : ℚ) := by
      exact_mod_cast Nat.pos_of_ne_zero hc
    constructor
    · exact div_nonneg (precisionSum_nonneg l 0 0) (le_of_lt hpos)
    · rw [div_le_one hpos]
      exact precisionSum_le_count l 0 0 le_rfl

lemma precisionSum_true_block :
    ∀ (p : ℕ) (pos : ℕ) (rest : List Bool), (∀ b ∈ rest, b = false) →
      precisionSum (List.replicate p true ++ rest) pos pos = (p : ℚ) := by
  intro p
  induction p with
  | zero =>
    intro pos rest hrest
    simpa using precisionSum_allFalse rest pos pos hrest
  | succ p ih =>
    intro pos rest hrest
    rw [List.replicate_succ, List.cons_append]
    simp only [precisionSum, if_true]
    rw [div_self (by positivity), ih (pos + 1) rest hrest]
    push_cast
    ring

lemma averagePrecision_true_block {p : ℕ} {rest : List Bool} (hp : 1 ≤ p)
    (hrest : ∀ b ∈ rest, b = false) :
    averagePrecision (List.replicate p true ++ rest) = 1 := by
  have hcr : rest.count true = 0 :=
    List.count_eq_zero.mpr fun ht => absurd (hrest true ht) (by simp)
  have hpq : ((p : ℚ)) ≠ 0 := by
    have hpos : 0 < p := hp
    exact_mod_cast hpos.ne.symm
  unfold averagePrecision
  rw [precisionSum_true_block p 0 rest hrest, List.count_append,
      List.count_replicate_self, hcr, Nat.add_zero]
  exact div_self hpq

lemma sorted_bool_eq_replicate :
    ∀ (L : List Bool), L.Pairwise (fun a b => b ≤ a) →
      L = List.replicate (L.count true) true ++
        List.replicate (L.length - L.count true) false := by
  intro L
  induction L with
  | nil => intro _; rfl
  | cons a L ih =>
    intro hp
    obtain ⟨hall, hLp⟩ := List.pairwise_cons.mp hp
    have hL := ih hLp
    cases a with
    | true =>
      rw [List.count_cons_self, List.replicate_succ, List.cons_append]
      rw [show (true :: L).length - (L.count true + 1) =
        L.length - L.count true from by rw [List.length_cons]; omega]
      rw [← hL]
    | false =>
      have hallf : ∀ b ∈ L, b = false := by
        intro b hb
        have := hall b hb
        cases b with
        | true => exact absurd this (by decide)
        | false => rfl
      have hc : L.count true = 0 :=
        List.count_eq_zero.mpr fun ht => absurd (hallf true ht) (by simp)
      have hcc : (false :: L).count true = 0 :=
        List.count_eq_zero.mpr fun ht => by
          rcases List.mem_cons.mp ht with h | h
          · cases h
          · exact absurd (hallf true h) (by simp)
      rw [hcc, List.replicate_zero, List.nil_append]
      rw [show (false :: L).length - 0 = L.length + 1 from by simp]
      rw [List.replicate_succ]
      rw [hL, hc]
      simp

lemma scoreGE_trans : ∀ (a b c : ℚ × Bool), scoreGE a b → scoreGE b c →
    scoreGE a c := by
  intro a b c hab hbc
  simp only [scoreGE, decide_eq_true_eq] at *
  exact le_trans hbc hab

lemma scoreGE_total : ∀ (a b : ℚ × Bool), scoreGE a b || scoreGE b a := by
  intro a b
  simp only [scoreGE]
  rcases le_total a.1 b.1 with h | h <;> simp [h]

lemma rankedPairs_indicator {k : ℕ} {rows : List (List (ℚ × Bool))}
    (hind : ∀ row ∈ rows, ∀ p ∈ row, p.1 = if p.2 then (1 : ℚ) else 0) :
    ∀ p ∈ rankedPairs k rows, p.1 = if p.2 then (1 : ℚ) else 0 := by
  intro p hp
  unfold rankedPairs at hp
  rw [List.mem_mergeSort] at hp
  obtain ⟨l, hl, hpl⟩ := List.mem_flatten.mp hp
  obtain ⟨row, hrow, rfl⟩ := List.mem_map.mp hl
  unfold topK at hpl
  have hpr : p ∈ row := List.mem_mergeSort.mp (List.mem_of_mem_take hpl)
  exact hind row hrow p hpr

lemma topK_has_true {k : ℕ} (hk : 1 ≤ k) (row : List (ℚ × Bool))
    (hind : ∀ p ∈ row, p.1 = if p.2 then (1 : ℚ) else 0)
    (q : ℚ × Bool) (hq : q ∈ row) (hq2 : q.2 = true) :
    ∃ p ∈ topK k row, p.2 = true := by
  have hqm : q ∈ row.mergeSort scoreGE := List.mem_mergeSort.mpr hq
  cases hms : row.mergeSort scoreGE with
  | nil => rw [hms] at hqm; cases hqm
  | cons h restL =>
    have hsorted : (row.mergeSort scoreGE).Pairwise (fun a b => scoreGE a b) :=
      List.sorted_mergeSort scoreGE_trans scoreGE_total row
    rw [hms] at hsorted hqm
    have hh : h ∈ row := List.mem_mergeSort.mp
      (by rw [hms]; exact List.mem_cons_self _ _)
    refine ⟨h, ?_, ?_⟩
    · unfold topK
      rw [hms]
      cases k with
      | zero => omega
      | succ k2 => rw [List.take_succ_cons]; exact List.mem_cons_self _ _
    · rcases List.mem_cons.mp hqm with hqe | hmem
      · rw [hqe] at hq2
        exact hq2
      · have hge : scoreGE h q := (List.pairwise_cons.mp hsorted).1 q hmem
        have hle : q.1 ≤ h.1 := by simpa [scoreGE] using hge
        have hq1 : q.1 = 1 := by rw [hind q hq, hq2]; rfl
        cases hb : h.2 with
        | true => rfl
        | false =>
          exfalso
          have hhi := hind h hh
          rw [hb] at hhi
          simp at hhi
          rw [hhi, hq1] at hle
          linarith

lemma rankedPairs_true_mem {k : ℕ} {rows : List (List (ℚ × Bool))}
    (hk : 1 ≤ k)
    (hind : ∀ row ∈ rows, ∀ p ∈ row, p.1 = if p.2 then (1 : ℚ) else 0)
    (hpos : ∃ row ∈ rows, ∃ q ∈ row, q.2 = true) :
    ∃ p ∈ rankedPairs k rows, p.2 = true := by
  obtain ⟨row, hrow, q, hq, hq2⟩ := hpos
  obtain ⟨p, hp, hp2⟩ := topK_has_true hk row (hind row hrow) q hq hq2
  refine ⟨p, ?_, hp2⟩
  unfold rankedPairs
  rw [List.mem_mergeSort]
  exact List.mem_flatten.mpr ⟨topK k row, List.mem_map_of_mem _ hrow, hp⟩

lemma rankedPairs_sorted_labels {k : ℕ} {rows : List (List (ℚ × Bool))}
    (hind : ∀ p ∈ rankedPairs k rows, p.1 = if p.2 then (1 : ℚ) else 0) :
    ((rankedPairs k rows).map Prod.snd).Pairwise fun a b => b ≤ a := by
  have hs : (rankedPairs k rows).Pairwise (fun a b => scoreGE a b) := by
    unfold rankedPairs
    exact List.sorted_mergeSort scoreGE_trans scoreGE_total _
  rw [List.pairwise_map]
  refine List.Pairwise.imp_of_mem ?_ hs
  intro a b ha hb hab
  have hle : b.1 ≤ a.1 := by simpa [scoreGE] using hab
  have hai := hind a ha
  have hbi := hind b hb
  cases hb2 : b.2 with
  | false => exact Bool.false_le _
  | true =>
    cases ha2 : a.2 with
    | true => exact le_refl _
    | false =>
      exfalso
      rw [hb2] at hbi
      rw [ha2] at hai
      simp at hai hbi
      rw [hai, hbi] at hle
      linarith

lemma map_zip_self {f : Bool → ℚ} : ∀ (row : List Bool),
    (row.map f).zip row = row.map fun b => (f b, b) := by
  intro row
  induction row with
  | nil => rfl
  | cons b row ih => simp [ih]

lemma rows_of_indicator {f : Bool → ℚ} : ∀ (l : List (List Bool)),
    ((l.map (List.map f)).zip l).map (fun pa => pa.1.zip pa.2) =
      l.map fun row => row.map fun b => (f b, b) := by
  intro l
  induction l with
  | nil => rfl
  | cons row l ih => simp [map_zip_self, ih]

/-- C4: `calculate_gap`, as invoked by `eval` on equal-length parallel
collections of prediction and ground-truth vectors, returns a scalar in
`[0, 1]`; and on a perfectly ranked prediction set matching the ground truth
(predictions equal to the 0/1 ground-truth indicators, at least one positive
label, `k ≥ 1`) it returns exactly `1`. -/
theorem calculate_gap_bounds_and_perfect (preds : List (List ℚ))
    (actuals : List (List Bool)) (k : ℕ) :
    (0 ≤ calculate_gap preds actuals k ∧ calculate_gap preds actuals k ≤ 1) ∧
    (1 ≤ k →
      preds = actuals.map (List.map fun b => if b then (1 : ℚ) else 0) →
      (∃ row ∈ actuals, true ∈ row) →
      calculate_gap preds actuals k = 1) := by
  constructor
  · unfold calculate_gap
    exact averagePrecision_bounds _
  · intro hk hpred hpos
    subst hpred
    unfold calculate_gap
    rw [rows_of_indicator]
    set rows := actuals.map (fun row => row.map fun b =>
      ((if b then (1 : ℚ) else 0), b)) with hrows
    have hindrows : ∀ row ∈ rows, ∀ p ∈ row,
        p.1 = if p.2 then (1 : ℚ) else 0 := by
      intro row hrow p hp
      rw [hrows] at hrow
      obtain ⟨arow, ha, rfl⟩ := List.mem_map.mp hrow
      obtain ⟨b, hb, rfl⟩ := List.mem_map.mp hp
      rfl
    have hindL := rankedPairs_indicator (k := k) hindrows
    have hpos2 : ∃ p ∈ rankedPairs k rows, p.2 = true := by
      apply rankedPairs_true_mem hk hindrows
      obtain ⟨row, hrow, htrue⟩ := hpos
      refine ⟨row.map fun b => ((if b then (1 : ℚ) else 0), b), ?_, ?_⟩
      · rw [hrows]
        exact List.mem_map_of_mem _ hrow
      · exact ⟨((if true then (1 : ℚ) else 0), true),
          List.mem_map_of_mem _ htrue, rfl⟩
    have hlabels := rankedPairs_sorted_labels hindL
    have hshape := sorted_bool_eq_replicate _ hlabels
    have hcount : 1 ≤ ((rankedPairs k rows).map Prod.snd).count true := by
      obtain ⟨p, hp, hp2⟩ := hpos2
      have hmem : true ∈ (rankedPairs k rows).map Prod.snd :=
        List.mem_map.mpr ⟨p, hp, hp2⟩
      exact List.count_pos_iff.mpr hmem
    rw [hshape]
    exact averagePrecision_true_block hcount
      fun b hb => List.eq_of_mem_replicate hb

/-- Witness for C4: one item with labels `[true, false]` and matching
predictions `[1, 0]` at `k = 20` — GAP is in `[0, 1]` and equals `1`. -/
theorem calculate_gap_bounds_and_perfect_witness :
    (0 ≤ calculate_gap [[(1 : ℚ), 0]] [[true, false]] 20 ∧
      calculate_gap [[(1 : ℚ), 0]] [[true, false]] 20 ≤ 1) ∧
    calculate_gap [[(1 : ℚ), 0]] [[true, false]] 20 = 1 :=
  ⟨(calculate_gap_bounds_and_perfect [[(1 : ℚ), 0]] [[true, false]] 20).1,
    (calculate_gap_bounds_and_perfect [[(1 : ℚ), 0]] [[true, false]] 20).2
      (by decide) rfl ⟨[true, false], by decide, by decide⟩⟩

end NeXtVLAD
